import Mathlib

set_option maxHeartbeats 2000000
set_option maxRecDepth 8000

/-!
Verification development for `coursebuilder/modules/mapreduce/mapreduce_module.py`:
the request-dispatch authorization gateway in front of the map/reduce subsystem.

The embedding models Python strings as `List Char` wrapped in `String`.
`str.replace(old, new)` (unbounded count) is modelled by `replaceAllL`;
`str.replace(old, new, 1)` by `replaceFirstL`.  Both scan left to right and,
on a match, skip past the matched occurrence (non-overlapping replacement),
exactly as CPython does.  The definitions are fuel-indexed (fuel = remaining
list length) so that they are structurally recursive and kernel-evaluable.
All patterns appearing in the source module are nonempty, so the behaviour of
Python's empty-pattern replace is irrelevant; the `!p.isEmpty` guard merely
keeps the definition total.
-/

def replaceAllFuel (p r : List Char) : Nat → List Char → List Char
  | _, [] => []
  | 0, s => s
  | fuel + 1, c :: t =>
    if p.isPrefixOf (c :: t) && !p.isEmpty then
      r ++ replaceAllFuel p r fuel (t.drop (p.length - 1))
    else
      c :: replaceAllFuel p r fuel t

def replaceAllL (p r s : List Char) : List Char :=
  replaceAllFuel p r s.length s

def replaceFirstFuel (p r : List Char) : Nat → List Char → List Char
  | _, [] => []
  | 0, s => s
  | fuel + 1, c :: t =>
    if p.isPrefixOf (c :: t) && !p.isEmpty then
      r ++ t.drop (p.length - 1)
    else
      c :: replaceFirstFuel p r fuel t

def replaceFirstL (p r s : List Char) : List Char :=
  replaceFirstFuel p r s.length s

-- Python `s.replace(pat, repl)` on `String`s.
def pyReplace (s pat repl : String) : String :=
  String.mk (replaceAllL pat.data repl.data s.data)

-- Python `s.replace(pat, repl, 1)` on `String`s.
def pyReplaceFirst (s pat repl : String) : String :=
  String.mk (replaceFirstL pat.data repl.data s.data)

-- Python `s.startswith(p)` / `s.endswith(p)` / `p in s`, kernel-evaluable.
def strStartsWith (s p : String) : Bool :=
  p.data.isPrefixOf s.data

def strEndsWith (s p : String) : Bool :=
  p.data.isSuffixOf s.data

-- Bool-valued substring test (kernel-evaluable), used for Python `sub in s`.
def containsSub (p : List Char) : List Char → Bool
  | [] => p.isEmpty
  | c :: t => p.isPrefixOf (c :: t) || containsSub p t

def strContains (s sub : String) : Bool :=
  containsSub sub.data s.data

theorem containsSub_iff (p : List Char) : ∀ s, containsSub p s = true ↔ p <:+: s := by
  intro s
  induction s with
  | nil =>
    simp only [containsSub, List.isEmpty_iff, List.infix_nil]
  | cons c t ih =>
    simp only [containsSub, Bool.or_eq_true, List.isPrefixOf_iff_prefix, ih]
    exact ( List.infix_cons_iff).symm

/-! Fuel irrelevance and unfolding equations for `replaceAllL`. -/

theorem replaceAllFuel_irrel (p r : List Char) :
    ∀ f₁ f₂ s, s.length ≤ f₁ → s.length ≤ f₂ →
      replaceAllFuel p r f₁ s = replaceAllFuel p r f₂ s := by
  intro f₁
  induction f₁ with
  | zero =>
    intro f₂ s h₁ _
    have hs : s = [] := List.eq_nil_of_length_eq_zero (Nat.le_zero.mp h₁)
    subst hs
    cases f₂ <;> rfl
  | succ f₁ ih =>
    intro f₂ s h₁ h₂
    cases s with
    | nil => cases f₂ <;> rfl
    | cons c t =>
      cases f₂ with
      | zero => simp at h₂
      | succ f₂ =>
        simp only [replaceAllFuel]
        have ht₁ : t.length ≤ f₁ := by simp at h₁; omega
        have ht₂ : t.length ≤ f₂ := by simp at h₂; omega
        by_cases hm : (p.isPrefixOf (c :: t) && !p.isEmpty) = true
        · simp only [hm, if_true]
          have hd₁ : (t.drop (p.length - 1)).length ≤ f₁ := by
            simp only [List.length_drop]; omega
          have hd₂ : (t.drop (p.length - 1)).length ≤ f₂ := by
            simp only [List.length_drop]; omega
          rw [ih _ _ hd₁ hd₂]
        · simp only [Bool.not_eq_true] at hm
          simp only [hm, Bool.false_eq_true, if_false]
          rw [ih _ _ ht₁ ht₂]

theorem replaceAllL_nil (p r : List Char) : replaceAllL p r [] = [] := rfl

theorem replaceAllL_cons_match {p : List Char} (r : List Char) {c : Char} {t : List Char}
    (h : (p.isPrefixOf (c :: t) && !p.isEmpty) = true) :
    replaceAllL p r (c :: t) = r ++ replaceAllL p r (t.drop (p.length - 1)) := by
  unfold replaceAllL
  show replaceAllFuel p r (t.length + 1) (c :: t) = _
  simp only [replaceAllFuel, h, if_true]
  rw [replaceAllFuel_irrel p r t.length (t.drop (p.length - 1)).length (t.drop (p.length - 1))
      (by simp only [List.length_drop]; omega) (Nat.le_refl _)]

theorem replaceAllL_cons_nomatch {p : List Char} (r : List Char) {c : Char} {t : List Char}
    (h : (p.isPrefixOf (c :: t) && !p.isEmpty) = false) :
    replaceAllL p r (c :: t) = c :: replaceAllL p r t := by
  unfold replaceAllL
  show replaceAllFuel p r (t.length + 1) (c :: t) = _
  simp only [replaceAllFuel, h, Bool.false_eq_true, if_false]

/-!
General word-combinatorics facts about prefixes, suffixes and infixes, used to
prove idempotence properties of the response-body substitutions.
-/

theorem prefTotal {l₁ l₂ l₃ : List Char} (h₁ : l₁ <+: l₃) (h₂ : l₂ <+: l₃) :
    l₁ <+: l₂ ∨ l₂ <+: l₁ :=
  List.prefix_or_prefix_of_prefix h₁ h₂

theorem prefOfPrefAppend {x y z : List Char} (h : x <+: y ++ z) (hl : x.length ≤ y.length) :
    x <+: y := by
  rcases prefTotal h (List.prefix_append y z) with h' | h'
  · exact h'
  · have heq : y = x := h'.eq_of_length (Nat.le_antisymm h'.length_le hl)
    rw [heq]

theorem prefAppendCancel {l x y : List Char} (h : l ++ x <+: l ++ y) : x <+: y := by
  obtain ⟨t, ht⟩ := h
  refine ⟨t, ?_⟩
  have ht' : l ++ (x ++ t) = l ++ y := by
    rw [← List.append_assoc]; exact ht
  exact List.append_cancel_left ht'

theorem infConsCases {p l : List Char} {a : Char} (h : p <:+: a :: l) :
    p <+: a :: l ∨ p <:+: l :=
  ( List.infix_cons_iff).mp h

theorem sufGetLast {q l : List Char} (h : q <:+ l) (hne : q ≠ []) :
    l.getLast? = q.getLast? := by
  obtain ⟨t, rfl⟩ := h
  rw [List.getLast?_append]
  cases hq : q.getLast? with
  | none => exact absurd (List.getLast?_eq_none_iff.mp hq) hne
  | some c => rfl

theorem prefEqTake {x l : List Char} (h : x <+: l) : x = l.take x.length := by
  obtain ⟨t, rfl⟩ := h
  rw [List.take_left]

theorem sufEqDrop {x l : List Char} (h : x <:+ l) : x = l.drop (l.length - x.length) := by
  obtain ⟨t, rfl⟩ := h
  have hl : (t ++ x).length - x.length = t.length := by simp
  rw [hl, List.drop_left]

theorem infSplitAppend {p u v : List Char} (h : p <:+: u ++ v) :
    p <:+: u ∨ p <:+: v ∨
      ∃ q₁ q₂, p = q₁ ++ q₂ ∧ q₁ ≠ [] ∧ q₂ ≠ [] ∧ q₁ <:+ u ∧ q₂ <+: v := by
  obtain ⟨a, b, hab⟩ := h
  rcases le_or_lt (a.length + p.length) u.length with hle | hgt
  · -- the occurrence lies inside u
    left
    have hap : a ++ p <+: u ++ v := ⟨b, hab⟩
    obtain ⟨t, ht⟩ := prefOfPrefAppend hap (by simp only [List.length_append]; omega)
    exact ⟨a, t, by rw [← ht]⟩
  · rcases le_or_lt u.length a.length with hle2 | hgt2
    · -- the occurrence lies inside v
      right; left
      have ha : a <+: u ++ v := ⟨p ++ b, by simpa [List.append_assoc] using hab⟩
      rcases prefTotal ha (List.prefix_append u v) with h' | h'
      · have heq : a = u := h'.eq_of_length (Nat.le_antisymm h'.length_le hle2)
        subst heq
        have : a ++ (p ++ b) = a ++ v := by simpa [List.append_assoc] using hab
        have hv : p ++ b = v := List.append_cancel_left this
        exact ⟨[], b, by simpa using hv⟩
      · obtain ⟨a', rfl⟩ := h'
        have : u ++ (a' ++ p ++ b) = u ++ v := by simpa [List.append_assoc] using hab
        have hv : a' ++ p ++ b = v := List.append_cancel_left this
        exact ⟨a', b, hv⟩
    · -- the occurrence straddles the boundary between u and v
      right; right
      refine ⟨p.take (u.length - a.length), p.drop (u.length - a.length),
        (List.take_append_drop _ p).symm, ?_, ?_, ?_, ?_⟩
      · intro hnil
        have := congrArg List.length hnil
        simp only [List.length_take, List.length_nil] at this
        omega
      · intro hnil
        have := congrArg List.length hnil
        simp only [List.length_drop, List.length_nil] at this
        omega
      · -- p.take (u.length - a.length) <:+ u
        have h1 : (u ++ v).take u.length = u := List.take_left u v
        rw [← hab, List.append_assoc, List.take_append_eq_append_take,
          List.take_of_length_le (by omega : a.length ≤ u.length),
          List.take_append_eq_append_take,
          (by omega : u.length - a.length - p.length = 0), List.take_zero,
          List.append_nil] at h1
        exact ⟨a, h1⟩
      · -- p.drop (u.length - a.length) <+: v
        have h1 : (u ++ v).drop u.length = v := List.drop_left u v
        rw [← hab, List.append_assoc, List.drop_append_eq_append_drop,
          List.drop_eq_nil_of_le (by omega : a.length ≤ u.length),
          List.nil_append, List.drop_append_eq_append_drop,
          (by omega : u.length - a.length - p.length = 0), List.drop_zero] at h1
        exact ⟨b, h1⟩

/-!
Sufficient conditions under which the left-to-right replace-all of `p` by `r`
leaves no occurrence of `p` in its output, hence is idempotent.
-/

structure SafeRule (p r : List Char) : Prop where
  p_ne : p ≠ []
  not_inf : ¬ p <:+: r
  suf_pref : ∀ q, q <:+ r → q ≠ [] → q <+: p → q.length < p.length → False
  pref_suf : ∀ q, q <+: r → q ≠ [] → q <:+ p → q.length < p.length → False
  not_inside : ∀ x y, p = x ++ r ++ y → x ≠ [] → y ≠ [] → False

theorem replaceAllL_no_occ {p r : List Char} (_hp : p ≠ []) :
    ∀ s, ¬ p <:+: s → replaceAllL p r s = s := by
  intro s
  induction s with
  | nil => intro _; rfl
  | cons c t ih =>
    intro hninf
    have hnpre : ¬ p <+: (c :: t) := fun h' => hninf h'.isInfix
    have hmf : (p.isPrefixOf (c :: t) && !p.isEmpty) = false := by
      have hpp : p.isPrefixOf (c :: t) = false := by
        cases hq : p.isPrefixOf (c :: t)
        · rfl
        · exact absurd (List.isPrefixOf_iff_prefix.mp hq) hnpre
      simp [hpp]
    rw [replaceAllL_cons_nomatch r hmf]
    rw [ih (fun h' => hninf ( List.infix_cons h'))]

theorem firstDecomp {p : List Char} (r : List Char) (hp : p ≠ []) :
    ∀ s : List Char, (replaceAllL p r s = s ∧ ¬ p <:+: s) ∨
      ∃ a b, s = a ++ p ++ b ∧ replaceAllL p r s = a ++ r ++ replaceAllL p r b := by
  intro s
  induction s with
  | nil =>
    left
    exact ⟨rfl, fun h => hp (List.infix_nil.mp h)⟩
  | cons c t ih =>
    by_cases hm : (p.isPrefixOf (c :: t) && !p.isEmpty) = true
    · right
      have hpre : p <+: c :: t :=
        List.isPrefixOf_iff_prefix.mp ((Bool.and_eq_true _ _).mp hm).1
      obtain ⟨b, hb⟩ := hpre
      refine ⟨[], b, by simpa using hb.symm, ?_⟩
      rw [replaceAllL_cons_match r hm]
      have hb' : t.drop (p.length - 1) = b := by
        have hd : (p ++ b).drop p.length = b := List.drop_left p b
        rw [hb] at hd
        have hl : p.length = (p.length - 1) + 1 := by
          have : p.length ≠ 0 := fun h0 => hp (List.eq_nil_of_length_eq_zero h0)
          omega
        rw [hl, List.drop_succ_cons] at hd
        exact hd
      rw [hb']
      simp
    · have hmf : (p.isPrefixOf (c :: t) && !p.isEmpty) = false := by
        revert hm; cases (p.isPrefixOf (c :: t) && !p.isEmpty) <;> simp
      have hnpre : ¬ p <+: (c :: t) := by
        intro hp'
        have h1 : p.isPrefixOf (c :: t) = true := List.isPrefixOf_iff_prefix.mpr hp'
        have h2 : p.isEmpty = false := by
          cases hpe : p.isEmpty
          · rfl
          · exact absurd (List.isEmpty_iff.mp hpe) hp
        simp [h1, h2] at hmf
      rcases ih with ⟨heq, hninf⟩ | ⟨a, b, hteq, hout⟩
      · left
        refine ⟨by rw [replaceAllL_cons_nomatch r hmf, heq], ?_⟩
        intro hinf
        rcases infConsCases hinf with h' | h'
        · exact hnpre h'
        · exact hninf h'
      · right
        refine ⟨c :: a, b, by simp [hteq], ?_⟩
        rw [replaceAllL_cons_nomatch r hmf, hout]
        simp

theorem noOccAux {p r : List Char} (h : SafeRule p r) :
    ∀ n, ∀ s : List Char, s.length ≤ n → ¬ p <:+: replaceAllL p r s := by
  intro n
  induction n with
  | zero =>
    intro s hs
    have hs0 : s = [] := List.eq_nil_of_length_eq_zero (Nat.le_zero.mp hs)
    subst hs0
    rw [replaceAllL_nil]
    exact fun hinf => h.p_ne (List.infix_nil.mp hinf)
  | succ n ih =>
    intro s hs
    cases s with
    | nil =>
      rw [replaceAllL_nil]
      exact fun hinf => h.p_ne (List.infix_nil.mp hinf)
    | cons c t =>
      have hts : t.length ≤ n := by
        simp only [List.length_cons] at hs; omega
      by_cases hm : (p.isPrefixOf (c :: t) && !p.isEmpty) = true
      · rw [replaceAllL_cons_match r hm]
        intro hinf
        rcases infSplitAppend hinf with h1 | h1 | ⟨q₁, q₂, hq, h1ne, h2ne, hsuf, _⟩
        · exact h.not_inf h1
        · exact ih _ (by simp only [List.length_drop]; omega) h1
        · refine h.suf_pref q₁ hsuf h1ne ⟨q₂, hq.symm⟩ ?_
          have hlen := congrArg List.length hq
          simp only [List.length_append] at hlen
          have h2len : q₂.length ≠ 0 := fun h0 => h2ne (List.eq_nil_of_length_eq_zero h0)
          omega
      · have hmf : (p.isPrefixOf (c :: t) && !p.isEmpty) = false := by
          revert hm; cases (p.isPrefixOf (c :: t) && !p.isEmpty) <;> simp
        have hnpre : ¬ p <+: (c :: t) := by
          intro hp'
          have h1 : p.isPrefixOf (c :: t) = true := List.isPrefixOf_iff_prefix.mpr hp'
          have h2 : p.isEmpty = false := by
            cases hpe : p.isEmpty
            · rfl
            · exact absurd (List.isEmpty_iff.mp hpe) h.p_ne
          simp [h1, h2] at hmf
        rw [replaceAllL_cons_nomatch r hmf]
        intro hinf
        rcases infConsCases hinf with hpre | hinf'
        · -- p is a prefix of c :: replaceAllL p r t although it did not match on c :: t
          rcases firstDecomp r h.p_ne t with ⟨heq, _⟩ | ⟨a, b, hteq, hout⟩
          · rw [heq] at hpre
            exact hnpre hpre
          · rw [hout] at hpre
            have hassoc : c :: (a ++ r ++ replaceAllL p r b)
                = (c :: a) ++ (r ++ replaceAllL p r b) := by simp
            rw [hassoc] at hpre
            rcases le_or_lt p.length (a.length + 1) with hle | hgt
            · have hpca : p <+: c :: a :=
                prefOfPrefAppend hpre (by simpa using hle)
              refine hnpre ?_
              have hct : c :: t = (c :: a) ++ (p ++ b) := by simp [hteq]
              rw [hct]
              exact hpca.trans (List.prefix_append _ _)
            · have hca : (c :: a) <+: p := by
                rcases prefTotal hpre (List.prefix_append (c :: a) _) with h' | h'
                · exact absurd h'.length_le (by simp only [List.length_cons]; omega)
                · exact h'
              obtain ⟨p₂, hp₂⟩ := hca
              have hp₂len := congrArg List.length hp₂
              simp only [List.length_append, List.length_cons] at hp₂len
              have hp₂ne : p₂ ≠ [] := by
                intro h0
                rw [h0] at hp₂len
                simp at hp₂len
                omega
              have hpre₂ : p₂ <+: r ++ replaceAllL p r b := by
                obtain ⟨w, hw⟩ := hpre
                refine ⟨w, ?_⟩
                have h1 : ((c :: a) ++ p₂) ++ w = (c :: a) ++ (r ++ replaceAllL p r b) := by
                  rw [hp₂]; exact hw
                rw [List.append_assoc] at h1
                exact List.append_cancel_left h1
              rcases le_or_lt p₂.length r.length with hle2 | hgt2
              · have hp₂r : p₂ <+: r := prefOfPrefAppend hpre₂ hle2
                refine h.pref_suf p₂ hp₂r hp₂ne ⟨c :: a, hp₂⟩ ?_
                omega
              · have hrp : r <+: p₂ := by
                  rcases prefTotal hpre₂ (List.prefix_append r _) with h' | h'
                  · exact absurd h'.length_le (by omega)
                  · exact h'
                obtain ⟨p₃, hp₃⟩ := hrp
                have hp₃len := congrArg List.length hp₃
                simp only [List.length_append] at hp₃len
                have hp₃ne : p₃ ≠ [] := by
                  intro h0
                  rw [h0] at hp₃len
                  simp at hp₃len
                  omega
                refine h.not_inside (c :: a) p₃ ?_ (by simp) hp₃ne
                rw [← hp₂, ← hp₃]
                simp [List.append_assoc]
        · exact ih t hts hinf'

theorem replaceAllL_no_reocc {p r : List Char} (h : SafeRule p r) (s : List Char) :
    ¬ p <:+: replaceAllL p r s :=
  noOccAux h s.length s (Nat.le_refl _)

theorem replaceAllL_idem {p r : List Char} (h : SafeRule p r) (s : List Char) :
    replaceAllL p r (replaceAllL p r s) = replaceAllL p r s :=
  replaceAllL_no_occ h.p_ne _ (replaceAllL_no_reocc h s)

/-!
Python `urllib.quote_plus` / `urllib.urlencode`, as used by `ui_access_wrapper`.
`quote_plus` keeps ASCII letters, digits and `_ . -`, encodes a space as `+`
and percent-encodes any other character as `%XX` with uppercase hex digits.
For a character beyond one byte we take the code point's low byte, which is
what the Python 2 byte-string implementation would see; no theorem below
depends on this choice, only on the character class of the output.
-/

def hexChar (n : Nat) : Char :=
  if n < 10 then Char.ofNat (48 + n) else Char.ofNat (55 + n)

def quotePlusChar (c : Char) : List Char :=
  if c.isAlphanum || c == '_' || c == '.' || c == '-' then [c]
  else if c == ' ' then ['+']
  else ['%', hexChar (c.toNat / 16 % 16), hexChar (c.toNat % 16)]

def quotePlus (s : String) : String :=
  String.mk (s.data.map quotePlusChar).flatten

-- urllib.urlencode(d): '&'.join('%s=%s' % (quote_plus(k), quote_plus(v)))
def urlencode : List (String × String) → String
  | [] => ""
  | [kv] => quotePlus kv.1 ++ "=" ++ quotePlus kv.2
  | kv :: rest => quotePlus kv.1 ++ "=" ++ quotePlus kv.2 ++ "&" ++ urlencode rest

-- Character class of quote_plus output: none of the characters the four
-- response substitutions key on can be produced by the encoder.
@[reducible] def qpGood (c : Char) : Prop :=
  c ≠ '/' ∧ c ≠ '?' ∧ c ≠ '"' ∧ c ≠ '=' ∧ c ≠ '&'

theorem hexChar_good : ∀ n, n < 16 → qpGood (hexChar n) := by decide

theorem quotePlusChar_good : ∀ c₀ c, c ∈ quotePlusChar c₀ → qpGood c := by
  intro c₀ c hc
  unfold quotePlusChar at hc
  by_cases h1 : (c₀.isAlphanum || c₀ == '_' || c₀ == '.' || c₀ == '-') = true
  · rw [if_pos h1] at hc
    simp only [List.mem_singleton] at hc
    subst hc
    rcases Bool.or_eq_true _ _ |>.mp h1 with h2 | h2
    · rcases Bool.or_eq_true _ _ |>.mp h2 with h3 | h3
      · rcases Bool.or_eq_true _ _ |>.mp h3 with h4 | h4
        · -- alphanumeric characters are none of the special characters
          refine ⟨?_, ?_, ?_, ?_, ?_⟩ <;> (intro heq; rw [heq] at h4; exact absurd h4 (by decide))
        · rw [beq_iff_eq.mp h4]; decide
      · rw [beq_iff_eq.mp h3]; decide
    · rw [beq_iff_eq.mp h2]; decide
  · rw [if_neg h1] at hc
    by_cases h2 : (c₀ == ' ') = true
    · rw [if_pos h2] at hc
      simp only [List.mem_singleton] at hc
      subst hc; decide
    · rw [if_neg h2] at hc
      simp only [List.mem_cons, List.not_mem_nil, or_false] at hc
      rcases hc with rfl | rfl | rfl
      · decide
      · exact hexChar_good _ (Nat.mod_lt _ (by omega))
      · exact hexChar_good _ (Nat.mod_lt _ (by omega))

theorem quotePlusChar_ne_nil : ∀ c, quotePlusChar c ≠ [] := by
  intro c
  unfold quotePlusChar
  split
  · simp
  · split <;> simp

theorem quotePlus_good : ∀ s c, c ∈ (quotePlus s).data → qpGood c := by
  intro s c hc
  have hc' : c ∈ (s.data.map quotePlusChar).flatten := hc
  rw [List.mem_flatten] at hc'
  obtain ⟨l, hl, hcl⟩ := hc'
  rw [List.mem_map] at hl
  obtain ⟨c₀, _, rfl⟩ := hl
  exact quotePlusChar_good c₀ c hcl

theorem quotePlus_data_ne_nil {s : String} (h : s.data ≠ []) : (quotePlus s).data ≠ [] := by
  cases hs : s.data with
  | nil => exact absurd hs h
  | cons c₀ t =>
    show (s.data.map quotePlusChar).flatten ≠ []
    rw [hs]
    simp only [List.map_cons, List.flatten_cons]
    intro hnil
    exact quotePlusChar_ne_nil c₀ (List.append_eq_nil.mp hnil).1

/-!
The gateway.  Data model: a `Request` carries the path, the set of header
names present, and the query/form parameters; a `Response` carries the body
(`response.body` and `response.text` of webapp2 denote the same payload and
are collapsed into one field), the HTTP status and the declared charset.
`DispatchState` is the mutable per-request world: the ambient datastore
namespace (`nspace`; `namespace` is a Lean keyword), the response under
construction, and an observation log written only by probe handlers in the
theorems below (the gateway itself never touches it).
-/

def XSRF_ACTION_NAME : String := "view-mapreduce-ui"

structure Response where
  body : String
  status : Nat
  charset : Option String
deriving DecidableEq, Repr

structure Request where
  path : String
  headers : List String
  params : List (String × String)
deriving DecidableEq, Repr

def paramsGet : List (String × String) → String → String
  | [], _ => ""
  | kv :: rest, name => if kv.1 = name then kv.2 else paramsGet rest name

-- webapp2 `self.request.get(name)`: first value, or the empty string.
def Request.get (req : Request) (name : String) : String :=
  paramsGet req.params name

structure DispatchState where
  nspace : String
  response : Response
  log : List String
deriving DecidableEq, Repr

/--
A wrapped handler (the `real_dispatch` capability): it reads the request and
transforms the dispatch state; the returned `Bool` is `true` when the handler
returned normally and `false` when it raised, in which case the state records
the partial effects and the exception keeps propagating.
-/
def Handler : Type := Request → DispatchState → DispatchState × Bool

-- `self.response.out.write('Forbidden'); self.response.set_status(403)`.
def forbid (s : DispatchState) : DispatchState :=
  { s with response :=
      { s.response with body := s.response.body ++ "Forbidden", status := 403 } }

-- authorization_wrapper (mapreduce_module.py lines 52-62).
def authorization_wrapper (real_dispatch : Handler) (req : Request)
    (s : DispatchState) : DispatchState × Bool :=
  if "X-AppEngine-TaskName" ∉ req.headers then
    (forbid s, true)
  else
    real_dispatch req s

/--
Modelled from the spec: `common.utils.Namespace` (code of this repository that
is not under `src/`) is a scoped context manager for the datastore namespace:
it activates `nspace` strictly for the duration of the nested call and
restores the previous namespace on every exit path, including an exception
raised by the nested call (which keeps propagating, reported here by the
`Bool` component).
-/
def withNamespace (nspace : String) (f : DispatchState → DispatchState × Bool)
    (s : DispatchState) : DispatchState × Bool :=
  let res := f { s with nspace := nspace }
  ({ res.1 with nspace := s.nspace }, res.2)

/-!
The four response-body substitutions of the Response Context Propagator
(mapreduce_module.py lines 96-117), one per fixed endpoint identity.
-/

def substPipelineStatus (body : String) : String :=
  pyReplace body "rpc/tree?" "rpc/tree' + window.location.search + '&"

def substRpcTree (extra_url_params body : String) : String :=
  pyReplace body "/mapreduce/worker/detail?"
    ("/mapreduce/ui/detail?" ++ extra_url_params ++ "&")

def substDetail (extra_url_params body : String) : String :=
  pyReplace body "src=\"status.js\""
    ("src=\"status.js?" ++ extra_url_params ++ "\"")

def substStatusJs (nspace xsrf_token body : String) : String :=
  pyReplace body "'mapreduce_id':"
    ("'namespace': '" ++ (if nspace ≠ "" then nspace else "") ++
     "', 'xsrf_token': '" ++ (if xsrf_token ≠ "" then xsrf_token else "") ++
     "', 'mapreduce_id':")

-- The `params` dict built by ui_access_wrapper (lines 88-92): a key is
-- present only when its value is truthy, i.e. a nonempty string.  CPython 2
-- iterates this two-key dict in an implementation-defined order; we fix
-- insertion order.  No theorem below depends on the order, only on the
-- character class and the nonemptiness of the encoded values.
def uiParams (nspace xsrf_token : String) : List (String × String) :=
  (if nspace ≠ "" then [("namespace", nspace)] else []) ++
  (if xsrf_token ≠ "" then [("xsrf_token", xsrf_token)] else [])

-- content_is_static (lines 66-69).
def uiStatic (path : String) : Bool :=
  strStartsWith path "/mapreduce/ui/" &&
    (strEndsWith path ".css" || strEndsWith path ".js")

-- The admission condition of ui_access_wrapper (line 76):
-- `ui_enabled and (content_is_static or user_is_course_admin or
--  users.is_current_user_admin())`.  The token validator and the platform
-- admin check are external services, taken as parameters.
def admittedCond (ui_enabled : Bool) (is_xsrf_token_valid : String → String → Bool)
    (is_current_user_admin : Bool) (req : Request) : Bool :=
  ui_enabled && (uiStatic req.path
    || is_xsrf_token_valid (req.get "xsrf_token") XSRF_ACTION_NAME
    || is_current_user_admin)

-- ui_access_wrapper (mapreduce_module.py lines 65-120).
def ui_access_wrapper (ui_enabled : Bool) (is_xsrf_token_valid : String → String → Bool)
    (is_current_user_admin : Bool) (real_dispatch : Handler)
    (req : Request) (s : DispatchState) : DispatchState × Bool :=
  if admittedCond ui_enabled is_xsrf_token_valid is_current_user_admin req then
    let nspace := req.get "namespace"
    let res := withNamespace nspace (real_dispatch req) s
    let s₂ := res.1
    if res.2 then
      let xsrf_token := req.get "xsrf_token"
      let extra_url_params := urlencode (uiParams nspace xsrf_token)
      if req.path = "/mapreduce/ui/pipeline/status.js" then
        ({ s₂ with response :=
            { s₂.response with body := substPipelineStatus s₂.response.body } }, true)
      else if req.path = "/mapreduce/ui/pipeline/rpc/tree" then
        ({ s₂ with response :=
            { s₂.response with body := substRpcTree extra_url_params s₂.response.body } }, true)
      else if req.path = "/mapreduce/ui/detail" then
        ({ s₂ with response :=
            { s₂.response with body := substDetail extra_url_params s₂.response.body } }, true)
      else if req.path = "/mapreduce/ui/status.js" then
        ({ s₂ with response :=
            { s₂.response with
                charset := some "utf8",
                body := substStatusJs nspace xsrf_token s₂.response.body } }, true)
      else (s₂, true)
    else (s₂, false)
  else
    (forbid s, true)

/-!
Registration (mapreduce_module.py lines 123-166).  A handler class is a pair
of optional attributes `dispatch` / `real_dispatch` (absent = `none`); the
attribute values are either an original bound dispatch or one of the two
wrapper functions.  `register_module` also sets the map/reduce BASE_PATH and
wraps the table into a `custom_modules.Module`; only the assembled route
table (`global_handlers`) matters to the claims.  In Python the wrapping
mutates the class object itself, so running the loop again over an already
wrapped class takes the `hasattr(..., 'real_dispatch')` guard; the iterated
application is modelled by `applyWraps`.
-/

inductive DispatchVal where
  | orig (id : Nat)
  | uiAccessWrapper
  | authorizationWrapper
deriving DecidableEq, Repr

structure HandlerClass where
  dispatch : Option DispatchVal
  real_dispatch : Option DispatchVal
deriving DecidableEq, Repr

-- lines 153-157: wrap with ui_access_wrapper when `dispatch` exists and
-- `real_dispatch` does not.
def wrap_ui_class (h : HandlerClass) : HandlerClass :=
  if h.dispatch.isSome && !h.real_dispatch.isSome then
    { dispatch := some DispatchVal.uiAccessWrapper, real_dispatch := h.dispatch }
  else h

-- lines 161-165: same guard, wrapping with authorization_wrapper.
def wrap_auth_class (h : HandlerClass) : HandlerClass :=
  if h.dispatch.isSome && !h.real_dispatch.isSome then
    { dispatch := some DispatchVal.authorizationWrapper, real_dispatch := h.dispatch }
  else h

-- Path classification (lines 131-148); `none` means the route is dropped.
def classifyPath (path : String) : Option String :=
  if strStartsWith path ".*/pipeline" then
    if strContains path "pipeline/rpc/" || path = ".*/pipeline(/.+)" then
      some (pyReplace path ".*/pipeline" "/mapreduce/ui/pipeline")
    else
      some (pyReplace path ".*/pipeline" "/mapreduce/worker/pipeline")
  else
    if strContains path "_callback" then
      some (pyReplaceFirst path ".*" "/mapreduce/worker")
    else if strContains path "/list_configs" then
      none
    else
      some (pyReplaceFirst path ".*" "/mapreduce/ui")

-- The assembled route table (lines 126-166).
def register_module (handlers_map : List (String × HandlerClass)) :
    List (String × HandlerClass) :=
  handlers_map.filterMap (fun e =>
    match classifyPath e.1 with
    | none => none
    | some path =>
      if strContains path "/ui/" || strEndsWith path "/ui" then
        some (path, wrap_ui_class e.2)
      else
        some (path, wrap_auth_class e.2))

-- Iterated wrapping of one class by any sequence of the two wrap operations
-- (`true` = ui wrap, `false` = worker wrap), modelling repeated runs of
-- register_module over the same (aliased, mutated in place) class objects.
def applyWraps (ws : List Bool) (h : HandlerClass) : HandlerClass :=
  ws.foldl (fun acc w => if w then wrap_ui_class acc else wrap_auth_class acc) h

/-!
The three substitutions whose anchors cannot reappear after a rewrite.
`SafeRule` is established for the pipeline status-script rule outright, and
for the RPC-tree and detail rules for every replacement whose variable middle
part (the URL-encoded parameters) avoids the few delimiter characters the
anchors rely on — which `quotePlus` output always does.
-/

theorem prefLeTake {x l : List Char} {n : Nat} (h : x <+: l) (hn : x.length ≤ n) :
    x <+: l.take n := by
  obtain ⟨t, rfl⟩ := h
  rw [List.take_append_eq_append_take, List.take_of_length_le hn]
  exact List.prefix_append _ _

theorem safeRule_pipelineStatus :
    SafeRule ("rpc/tree?").data ("rpc/tree' + window.location.search + '&").data := by
  refine ⟨by decide, by decide, ?_, ?_, ?_⟩
  · intro q hsuf hne hpre hlen
    have hq : q ∈ (("rpc/tree' + window.location.search + '&").data).tails :=
      (List.mem_tails _ _).mpr hsuf
    have hall : ∀ q' ∈ (("rpc/tree' + window.location.search + '&").data).tails,
        q' = [] ∨ ¬ q' <+: ("rpc/tree?").data ∨ ("rpc/tree?").data.length ≤ q'.length := by
      decide
    rcases hall q hq with h | h | h
    · exact hne h
    · exact h hpre
    · omega
  · intro q hpre hne hsuf hlen
    have hq : q ∈ (("rpc/tree' + window.location.search + '&").data).inits :=
      (List.mem_inits _ _).mpr hpre
    have hall : ∀ q' ∈ (("rpc/tree' + window.location.search + '&").data).inits,
        q' = [] ∨ ¬ q' <:+ ("rpc/tree?").data ∨ ("rpc/tree?").data.length ≤ q'.length := by
      decide
    rcases hall q hq with h | h | h
    · exact hne h
    · exact h hsuf
    · omega
  · intro x y hxy _ _
    have hinf : ("rpc/tree' + window.location.search + '&").data <:+: ("rpc/tree?").data :=
      ⟨x, y, hxy.symm⟩
    exact absurd hinf.length_le (by decide)

theorem safeRule_rpcTree (e : List Char) (he : '/' ∉ e) :
    SafeRule ("/mapreduce/worker/detail?").data
      (("/mapreduce/ui/detail?").data ++ e ++ ['&']) := by
  have hp25 : (("/mapreduce/worker/detail?").data).length = 25 := by decide
  refine ⟨by decide, ?_, ?_, ?_, ?_⟩
  · -- not_inf
    intro hinf
    rw [List.append_assoc] at hinf
    rcases infSplitAppend hinf with h1 | h1 | ⟨q₁, q₂, hq, h1ne, h2ne, hsuf, _⟩
    · exact absurd h1.length_le (by decide)
    · have hc := h1.count_le '/'
      have he0 : e.count '/' = 0 := List.count_eq_zero.mpr he
      have h0 : (e ++ ['&']).count '/' = 0 := by
        rw [List.count_append, he0]
        decide
      have h3 : (("/mapreduce/worker/detail?").data).count '/' = 3 := by decide
      omega
    · -- a nonempty suffix of the fixed part ends in '?', but no proper prefix
      -- of the anchor contains '?'
      have hlast : q₁.getLast? = some '?' := by
        rw [← sufGetLast hsuf h1ne]
        decide
      have hmem : '?' ∈ q₁ := List.mem_of_getLast?_eq_some hlast
      have hq₁p : q₁ <+: ("/mapreduce/worker/detail?").data := ⟨q₂, hq.symm⟩
      have hq₁len : q₁.length ≤ 24 := by
        have hl := congrArg List.length hq
        rw [hp25] at hl
        simp only [List.length_append] at hl
        have h2l : q₂.length ≠ 0 := fun h0 => h2ne (List.eq_nil_of_length_eq_zero h0)
        omega
      have hmem24 : '?' ∈ (("/mapreduce/worker/detail?").data).take 24 :=
        (prefLeTake hq₁p hq₁len).sublist.subset hmem
      revert hmem24
      decide
  · -- suf_pref: every nonempty suffix of the replacement ends in '&',
    -- and the anchor contains no '&'
    intro q hsuf hne hpre _
    have hlast : q.getLast? = some '&' := by
      rw [← sufGetLast hsuf hne]
      exact List.getLast?_concat _
    have hmem : '&' ∈ q := List.mem_of_getLast?_eq_some hlast
    have hmemp : '&' ∈ ("/mapreduce/worker/detail?").data := hpre.sublist.subset hmem
    revert hmemp
    decide
  · -- pref_suf: the suffixes of the anchor are p.drop k, 1 ≤ k ≤ 24, and none
    -- of them is prefix-compatible with the fixed part of the replacement
    intro q hpre hne hsuf hlen
    obtain ⟨t, ht⟩ := hsuf
    have hq : ("/mapreduce/worker/detail?").data.drop t.length = q := by
      rw [← ht, List.drop_left]
    have hlq : t.length + q.length = 25 := by
      have hl := congrArg List.length ht
      rw [hp25] at hl
      simp only [List.length_append] at hl
      omega
    have hqne : q.length ≠ 0 := fun h0 => hne (List.eq_nil_of_length_eq_zero h0)
    have hk1 : 1 ≤ t.length := by omega
    have hk2 : t.length < 25 := by omega
    rw [List.append_assoc] at hpre
    rcases prefTotal hpre (List.prefix_append ("/mapreduce/ui/detail?").data _) with hc | hc
    · have hall : ∀ k, k < 25 → 1 ≤ k →
          ¬ ("/mapreduce/worker/detail?").data.drop k <+: ("/mapreduce/ui/detail?").data := by
        decide
      exact hall t.length hk2 hk1 (by rw [hq]; exact hc)
    · have hall : ∀ k, k < 25 → 1 ≤ k →
          ¬ ("/mapreduce/ui/detail?").data <+: ("/mapreduce/worker/detail?").data.drop k := by
        decide
      exact hall t.length hk2 hk1 (by rw [hq]; exact hc)
  · -- not_inside: the replacement contains '&', the anchor does not
    intro x y hxy _ _
    have hinf : (("/mapreduce/ui/detail?").data ++ e ++ ['&']) <:+:
        ("/mapreduce/worker/detail?").data := ⟨x, y, hxy.symm⟩
    have hmem : '&' ∈ ("/mapreduce/worker/detail?").data := by
      apply hinf.subset
      simp
    revert hmem
    decide

theorem sufConcatCancel {x y : List Char} {c : Char} (h : x ++ [c] <:+ y ++ [c]) :
    x <:+ y := by
  obtain ⟨t, ht⟩ := h
  refine ⟨t, ?_⟩
  have ht' : (t ++ x) ++ [c] = y ++ [c] := by
    rw [List.append_assoc]; exact ht
  exact List.append_cancel_right ht'

theorem safeRule_detail (e : List Char) (he1 : '"' ∉ e)
    (he2 : ∀ c, e.getLast? = some c → c ≠ '=') :
    SafeRule ("src=\"status.js\"").data
      (("src=\"status.js?").data ++ e ++ ['"']) := by
  have hp15 : (("src=\"status.js\"").data).length = 15 := by decide
  have hG15 : (("src=\"status.js?").data).length = 15 := by decide
  refine ⟨by decide, ?_, ?_, ?_, ?_⟩
  · -- not_inf
    intro hinf
    rw [List.append_assoc] at hinf
    rcases infSplitAppend hinf with h1 | h1 | ⟨q₁, q₂, hq, h1ne, _, hsuf, _⟩
    · have heq := h1.eq_of_length (by decide)
      exact absurd heq (by decide)
    · have hc := h1.count_le '"'
      have he0 : e.count '"' = 0 := List.count_eq_zero.mpr he1
      have h0 : (e ++ ['"']).count '"' = 1 := by
        rw [List.count_append, he0]
        decide
      have h2 : (("src=\"status.js\"").data).count '"' = 2 := by decide
      omega
    · -- a nonempty suffix of the fixed part ends in '?', but the anchor has no '?'
      have hlast : q₁.getLast? = some '?' := by
        rw [← sufGetLast hsuf h1ne]
        decide
      have hmem : '?' ∈ q₁ := List.mem_of_getLast?_eq_some hlast
      have hmemp : '?' ∈ ("src=\"status.js\"").data := by
        rw [hq]
        exact List.mem_append_left _ hmem
      revert hmemp
      decide
  · -- suf_pref: a nonempty suffix of the replacement ends in '"'; the only
    -- proper prefix of the anchor ending in '"' is src=", and the replacement
    -- cannot end in src=" because the encoded middle part never ends in '='
    intro q hsuf hne hpre hlen
    have hlast : q.getLast? = some '"' := by
      rw [← sufGetLast hsuf hne]
      exact List.getLast?_concat _
    have hn1 : 1 ≤ q.length := List.length_pos.mpr hne
    have hn2 : q.length < 15 := by
      rw [hp15] at hlen
      exact hlen
    have hall : ∀ n, n < 15 → 1 ≤ n →
        ((("src=\"status.js\"").data.take n).getLast? = some '"') → n = 5 := by
      decide
    have hq5 : q.length = 5 := by
      refine hall q.length hn2 hn1 ?_
      rw [← prefEqTake hpre]
      exact hlast
    have hqc : q = ("src=\"").data := by
      have hq' := prefEqTake hpre
      rw [hq5] at hq'
      rw [hq']
      rfl
    rw [hqc] at hsuf
    have hsuf' : ("src=").data <:+ ("src=\"status.js?").data ++ e := by
      have hshape : ("src=\"").data = ("src=").data ++ ['"'] := by rfl
      rw [hshape] at hsuf
      exact sufConcatCancel hsuf
    cases he : e with
    | nil =>
      rw [he, List.append_nil] at hsuf'
      have := sufGetLast hsuf' (by decide)
      revert this
      decide
    | cons c₀ t₀ =>
      have hene : e ≠ [] := by rw [he]; simp
      have h1 := sufGetLast hsuf' (by decide)
      rw [List.getLast?_append] at h1
      cases hel : e.getLast? with
      | none => exact absurd (List.getLast?_eq_none_iff.mp hel) hene
      | some c =>
        rw [hel] at h1
        have h2 : ("src=").data.getLast? = some '=' := by decide
        rw [h2] at h1
        have hc : c = '=' := by simpa [Option.or] using h1
        exact he2 c hel (by rw [hc])
  · -- pref_suf
    intro q hpre hne hsuf hlen
    obtain ⟨t, ht⟩ := hsuf
    have hq : ("src=\"status.js\"").data.drop t.length = q := by
      rw [← ht, List.drop_left]
    have hlq : t.length + q.length = 15 := by
      have hl := congrArg List.length ht
      rw [hp15] at hl
      simp only [List.length_append] at hl
      omega
    have hqne : 1 ≤ q.length := List.length_pos.mpr hne
    have hn2 : q.length < 15 := by
      rw [hp15] at hlen
      exact hlen
    have hk1 : 1 ≤ t.length := by omega
    have hk2 : t.length < 15 := by omega
    rw [List.append_assoc] at hpre
    rcases prefTotal hpre (List.prefix_append ("src=\"status.js?").data _) with hc | hc
    · have hall : ∀ k, k < 15 → 1 ≤ k →
          ¬ ("src=\"status.js\"").data.drop k <+: ("src=\"status.js?").data := by
        decide
      exact hall t.length hk2 hk1 (by rw [hq]; exact hc)
    · have hle := hc.length_le
      rw [hG15] at hle
      omega
  · -- not_inside: the replacement is longer than the anchor
    intro x y hxy _ _
    have hinf : (("src=\"status.js?").data ++ e ++ ['"']) <:+:
        ("src=\"status.js\"").data := ⟨x, y, hxy.symm⟩
    have hle := hinf.length_le
    simp only [List.length_append, List.length_cons, List.length_nil] at hle
    omega

theorem strDataNeNil {s : String} (h : s ≠ "") : s.data ≠ [] := by
  intro h0
  apply h
  cases s with
  | mk d =>
    simp only at h0
    rw [h0]

theorem getLastAppendNe {x y : List Char} (hy : y ≠ []) : (x ++ y).getLast? = y.getLast? :=
  sufGetLast (List.suffix_append x y) hy

-- The URL-encoded parameter string built by ui_access_wrapper avoids `/`,
-- `"` and never ends in `=` (encoded values of the retained parameters are
-- nonempty, and the encoder's alphabet excludes the delimiters).
theorem extraFacts (ns tok : String) :
    '/' ∉ (urlencode (uiParams ns tok)).data ∧
    '"' ∉ (urlencode (uiParams ns tok)).data ∧
    ∀ c, (urlencode (uiParams ns tok)).data.getLast? = some c → c ≠ '=' := by
  have hqp : ∀ (s : String) (c : Char), c ∈ (quotePlus s).data →
      c ≠ '/' ∧ c ≠ '"' ∧ c ≠ '=' := by
    intro s c hc
    have hg := quotePlus_good s c hc
    exact ⟨hg.1, hg.2.2.1, hg.2.2.2.1⟩
  by_cases hns : ns = "" <;> by_cases htok : tok = ""
  · -- no parameter survives; the encoded string is empty
    subst hns; subst htok
    refine ⟨by decide, by decide, ?_⟩
    intro c hc
    have h0 : (urlencode (uiParams "" "")).data.getLast? = none := by decide
    rw [h0] at hc
    exact absurd hc (by simp)
  · -- only xsrf_token present
    subst hns
    have hu : uiParams "" tok = [("xsrf_token", tok)] := by
      simp [uiParams, htok]
    rw [hu]
    have hdata : (urlencode [("xsrf_token", tok)]).data
        = (quotePlus "xsrf_token").data ++ ['='] ++ (quotePlus tok).data := rfl
    refine ⟨?_, ?_, ?_⟩
    · intro hmem
      rw [hdata] at hmem
      rcases List.mem_append.mp hmem with hm | hm
      · rcases List.mem_append.mp hm with hm' | hm'
        · exact (hqp _ _ hm').1 rfl
        · simp at hm'
      · exact (hqp _ _ hm).1 rfl
    · intro hmem
      rw [hdata] at hmem
      rcases List.mem_append.mp hmem with hm | hm
      · rcases List.mem_append.mp hm with hm' | hm'
        · exact (hqp _ _ hm').2.1 rfl
        · simp at hm'
      · exact (hqp _ _ hm).2.1 rfl
    · intro c hc
      rw [hdata] at hc
      rw [getLastAppendNe (quotePlus_data_ne_nil (strDataNeNil htok))] at hc
      exact (hqp _ _ (List.mem_of_getLast?_eq_some hc)).2.2
  · -- only namespace present
    subst htok
    have hu : uiParams ns "" = [("namespace", ns)] := by
      simp [uiParams, hns]
    rw [hu]
    have hdata : (urlencode [("namespace", ns)]).data
        = (quotePlus "namespace").data ++ ['='] ++ (quotePlus ns).data := rfl
    refine ⟨?_, ?_, ?_⟩
    · intro hmem
      rw [hdata] at hmem
      rcases List.mem_append.mp hmem with hm | hm
      · rcases List.mem_append.mp hm with hm' | hm'
        · exact (hqp _ _ hm').1 rfl
        · simp at hm'
      · exact (hqp _ _ hm).1 rfl
    · intro hmem
      rw [hdata] at hmem
      rcases List.mem_append.mp hmem with hm | hm
      · rcases List.mem_append.mp hm with hm' | hm'
        · exact (hqp _ _ hm').2.1 rfl
        · simp at hm'
      · exact (hqp _ _ hm).2.1 rfl
    · intro c hc
      rw [hdata] at hc
      rw [getLastAppendNe (quotePlus_data_ne_nil (strDataNeNil hns))] at hc
      exact (hqp _ _ (List.mem_of_getLast?_eq_some hc)).2.2
  · -- both parameters present
    have hu : uiParams ns tok = [("namespace", ns), ("xsrf_token", tok)] := by
      simp [uiParams, hns, htok]
    rw [hu]
    have hdata : (urlencode [("namespace", ns), ("xsrf_token", tok)]).data
        = ((quotePlus "namespace").data ++ ['='] ++ (quotePlus ns).data ++ ['&'])
          ++ ((quotePlus "xsrf_token").data ++ ['='] ++ (quotePlus tok).data) := rfl
    have hright : ((quotePlus "xsrf_token").data ++ ['='] ++ (quotePlus tok).data) ≠ [] := by
      intro h0
      exact quotePlus_data_ne_nil (strDataNeNil htok) (List.append_eq_nil.mp h0).2
    refine ⟨?_, ?_, ?_⟩
    · intro hmem
      rw [hdata] at hmem
      rcases List.mem_append.mp hmem with hm | hm
      · rcases List.mem_append.mp hm with hm' | hm'
        · rcases List.mem_append.mp hm' with hm'' | hm''
          · rcases List.mem_append.mp hm'' with hm3 | hm3
            · exact (hqp _ _ hm3).1 rfl
            · simp at hm3
          · exact (hqp _ _ hm'').1 rfl
        · simp at hm'
      · rcases List.mem_append.mp hm with hm' | hm'
        · rcases List.mem_append.mp hm' with hm'' | hm''
          · exact (hqp _ _ hm'').1 rfl
          · simp at hm''
        · exact (hqp _ _ hm').1 rfl
    · intro hmem
      rw [hdata] at hmem
      rcases List.mem_append.mp hmem with hm | hm
      · rcases List.mem_append.mp hm with hm' | hm'
        · rcases List.mem_append.mp hm' with hm'' | hm''
          · rcases List.mem_append.mp hm'' with hm3 | hm3
            · exact (hqp _ _ hm3).2.1 rfl
            · simp at hm3
          · exact (hqp _ _ hm'').2.1 rfl
        · simp at hm'
      · rcases List.mem_append.mp hm with hm' | hm'
        · rcases List.mem_append.mp hm' with hm'' | hm''
          · exact (hqp _ _ hm'').2.1 rfl
          · simp at hm''
        · exact (hqp _ _ hm').2.1 rfl
    · intro c hc
      rw [hdata] at hc
      rw [getLastAppendNe hright] at hc
      rw [getLastAppendNe (quotePlus_data_ne_nil (strDataNeNil htok))] at hc
      exact (hqp _ _ (List.mem_of_getLast?_eq_some hc)).2.2

/-!
Probe handlers used to observe, in the theorems, whether and under which
ambient namespace the wrapped handler ran.  The gateway itself never touches
`log`, so any change of `log` is evidence that the wrapped handler ran.
-/

def logProbe : Handler := fun _ st => ({ st with log := st.log ++ ["dispatched"] }, true)

def nsProbeOk : Handler := fun _ st => ({ st with log := st.log ++ [st.nspace] }, true)

def nsProbeRaise : Handler := fun _ st => ({ st with log := st.log ++ [st.nspace] }, false)

def pathProbe : Handler := fun req st => ({ st with log := st.log ++ [req.path] }, true)

-- replaceFirst leaves a string without an occurrence of the pattern alone.
theorem replaceFirstFuel_no_occ {p r : List Char} :
    ∀ f s, ¬ p <:+: s → replaceFirstFuel p r f s = s := by
  intro f
  induction f with
  | zero => intro s _; cases s <;> rfl
  | succ f ih =>
    intro s hninf
    cases s with
    | nil => rfl
    | cons c t =>
      have hnpre : ¬ p <+: (c :: t) := fun h' => hninf h'.isInfix
      have hmf : (p.isPrefixOf (c :: t) && !p.isEmpty) = false := by
        have hpp : p.isPrefixOf (c :: t) = false := by
          cases hq : p.isPrefixOf (c :: t)
          · rfl
          · exact absurd (List.isPrefixOf_iff_prefix.mp hq) hnpre
        simp [hpp]
      simp only [replaceFirstFuel, hmf, Bool.false_eq_true, if_false]
      rw [ih t (fun h' => hninf ( List.infix_cons h'))]

theorem pyReplaceFirst_no_occ {s pat repl : String} (h : strContains s pat = false) :
    pyReplaceFirst s pat repl = s := by
  have hninf : ¬ pat.data <:+: s.data := by
    intro hinf
    rw [← containsSub_iff pat.data s.data] at hinf
    rw [strContains] at h
    rw [h] at hinf
    exact absurd hinf (by simp)
  show String.mk (replaceFirstL pat.data repl.data s.data) = s
  rw [replaceFirstL, replaceFirstFuel_no_occ _ _ hninf]

/--
Claim C2: for every request to a worker route, if the platform trust header
`X-AppEngine-TaskName` is absent from the request's header set the response is
status 403 with the fixed body `Forbidden` and the wrapped handler is never
invoked (the result is the same for every handler, the log and the ambient
namespace are untouched); if the header is present the original wrapped
handler is invoked exactly once with the unmodified request, with no token or
admin check and no namespace switch (the wrapper's result is exactly the
handler's result on the same request and state, and a probe records exactly
one invocation carrying the request's own path).
-/
theorem claim_C2_worker_filter (req : Request) (s : DispatchState) :
    ("X-AppEngine-TaskName" ∉ req.headers →
      (∀ f : Handler, authorization_wrapper f req s = (forbid s, true)) ∧
      (s.response.body = "" →
        (authorization_wrapper pathProbe req s).1.response.body = "Forbidden" ∧
        (authorization_wrapper pathProbe req s).1.response.status = 403) ∧
      (authorization_wrapper pathProbe req s).1.log = s.log ∧
      (authorization_wrapper pathProbe req s).1.nspace = s.nspace) ∧
    ("X-AppEngine-TaskName" ∈ req.headers →
      (∀ f : Handler, authorization_wrapper f req s = f req s) ∧
      (authorization_wrapper pathProbe req s).1.log = s.log ++ [req.path]) := by
  constructor
  · intro habs
    have hstep : ∀ f : Handler, authorization_wrapper f req s = (forbid s, true) := by
      intro f
      unfold authorization_wrapper
      rw [if_pos habs]
    refine ⟨hstep, ?_, ?_, ?_⟩
    · intro hbody
      rw [hstep pathProbe]
      unfold forbid
      rw [hbody]
      exact ⟨rfl, rfl⟩
    · rw [hstep pathProbe]
      rfl
    · rw [hstep pathProbe]
      rfl
  · intro hmem
    have hstep : ∀ f : Handler, authorization_wrapper f req s = f req s := by
      intro f
      unfold authorization_wrapper
      rw [if_neg (by simpa using hmem)]
    exact ⟨hstep, by rw [hstep pathProbe]; rfl⟩

/--
Claim C2 witness: with the trust header absent the response is 403 `Forbidden`
and the probe never runs; with it present the probe runs exactly once.
-/
theorem claim_C2_worker_filter_witness :
    (authorization_wrapper pathProbe ⟨"/mapreduce/worker/x", [], []⟩
        ⟨"", ⟨"", 0, none⟩, []⟩).1.response.status = 403 ∧
    (authorization_wrapper pathProbe ⟨"/mapreduce/worker/x", ["X-AppEngine-TaskName"], []⟩
        ⟨"", ⟨"", 0, none⟩, []⟩).1.log = ["/mapreduce/worker/x"] := by
  constructor
  · exact (((claim_C2_worker_filter ⟨"/mapreduce/worker/x", [], []⟩
      ⟨"", ⟨"", 0, none⟩, []⟩).1 (by decide)).2.1 rfl).2
  · exact ((claim_C2_worker_filter ⟨"/mapreduce/worker/x", ["X-AppEngine-TaskName"], []⟩
      ⟨"", ⟨"", 0, none⟩, []⟩).2 (by decide)).2

/--
Claim C1: for every request to a UI route, the wrapped handler runs if and
only if the feature flag is enabled and at least one of the three admission
grounds holds (static asset path under `/mapreduce/ui/` ending in `.css` or
`.js`; anti-forgery token valid for the fixed action `view-mapreduce-ui`;
platform admin) — this disjunction is exactly `admittedCond`.  On denial
(including flag disabled regardless of token or admin, and including a static
asset with the flag disabled) the result is the fixed 403 `Forbidden`
response for every handler, so the handler is never invoked and the log never
changes; on admission the probe handler runs exactly once (in particular a
static-asset path with the flag enabled is admitted with no token and no
admin).
-/
theorem claim_C1_ui_admission (ui : Bool) (valid : String → String → Bool) (admin : Bool)
    (req : Request) (s : DispatchState) :
    (admittedCond ui valid admin req = false →
      (∀ f : Handler, ui_access_wrapper ui valid admin f req s = (forbid s, true)) ∧
      (s.response.body = "" →
        (ui_access_wrapper ui valid admin logProbe req s).1.response.body = "Forbidden" ∧
        (ui_access_wrapper ui valid admin logProbe req s).1.response.status = 403) ∧
      (ui_access_wrapper ui valid admin logProbe req s).1.log = s.log) ∧
    (admittedCond ui valid admin req = true →
      (ui_access_wrapper ui valid admin logProbe req s).1.log = s.log ++ ["dispatched"]) := by
  constructor
  · intro hden
    have hstep : ∀ f : Handler, ui_access_wrapper ui valid admin f req s = (forbid s, true) := by
      intro f
      unfold ui_access_wrapper
      rw [hden]
      simp
    refine ⟨hstep, ?_, ?_⟩
    · intro hbody
      rw [hstep logProbe]
      unfold forbid
      rw [hbody]
      exact ⟨rfl, rfl⟩
    · rw [hstep logProbe]
      rfl
  · intro hadm
    unfold ui_access_wrapper
    rw [hadm]
    simp only [if_true, withNamespace, logProbe]
    split
    · rfl
    · split
      · rfl
      · split
        · rfl
        · split <;> rfl

/--
Claim C1 witness: a UI request with the feature disabled is denied with 403
even for an admin with a valid token; a static-asset path with the feature
enabled and neither token nor admin identity is admitted and the handler runs.
-/
theorem claim_C1_ui_admission_witness :
    (ui_access_wrapper false (fun _ _ => true) true logProbe
        ⟨"/mapreduce/ui/status.js", [], []⟩ ⟨"", ⟨"", 0, none⟩, []⟩).1.response.status = 403 ∧
    (ui_access_wrapper true (fun _ _ => false) false logProbe
        ⟨"/mapreduce/ui/status.js", [], []⟩ ⟨"", ⟨"", 0, none⟩, []⟩).1.log = ["dispatched"] := by
  constructor
  · exact (((claim_C1_ui_admission false (fun _ _ => true) true
      ⟨"/mapreduce/ui/status.js", [], []⟩ ⟨"", ⟨"", 0, none⟩, []⟩).1 (by decide)).2.1 rfl).2
  · exact (claim_C1_ui_admission true (fun _ _ => false) false
      ⟨"/mapreduce/ui/status.js", [], []⟩ ⟨"", ⟨"", 0, none⟩, []⟩).2 (by decide)

/--
Claim C4: for every admitted UI request the isolation namespace is resolved
from the optional `namespace` request parameter (empty string when absent,
via `Request.get`) and is active exactly for the duration of the nested
wrapped-handler call: the probe handlers observe exactly that namespace while
running, and the wrapper's final state restores the prior namespace on every
exit path — both when the handler returns normally and when it raises (in
which case the exception keeps propagating, second component `false`).  On a
denied request no namespace switch occurs at all.
-/
theorem claim_C4_namespace_scoped (ui : Bool) (valid : String → String → Bool)
    (admin : Bool) (req : Request) (s : DispatchState) :
    (admittedCond ui valid admin req = true →
      (∀ f : Handler, (ui_access_wrapper ui valid admin f req s).1.nspace = s.nspace) ∧
      (ui_access_wrapper ui valid admin nsProbeOk req s).1.log
        = s.log ++ [req.get "namespace"] ∧
      (ui_access_wrapper ui valid admin nsProbeRaise req s).1.log
        = s.log ++ [req.get "namespace"] ∧
      (ui_access_wrapper ui valid admin nsProbeRaise req s).2 = false) ∧
    (admittedCond ui valid admin req = false →
      ∀ f : Handler, (ui_access_wrapper ui valid admin f req s).1.nspace = s.nspace) := by
  constructor
  · intro hadm
    refine ⟨?_, ?_, ?_, ?_⟩
    · intro f
      unfold ui_access_wrapper
      rw [hadm]
      simp only [if_true, withNamespace]
      split
      · split
        · rfl
        · split
          · rfl
          · split
            · rfl
            · split <;> rfl
      · rfl
    · unfold ui_access_wrapper
      rw [hadm]
      simp only [if_true, withNamespace, nsProbeOk]
      split
      · rfl
      · split
        · rfl
        · split
          · rfl
          · split <;> rfl
    · unfold ui_access_wrapper
      rw [hadm]
      simp only [if_true, withNamespace, nsProbeRaise]
      rfl
    · unfold ui_access_wrapper
      rw [hadm]
      simp only [if_true, withNamespace, nsProbeRaise]
      rfl
  · intro hden f
    unfold ui_access_wrapper
    rw [hden]
    simp only [Bool.false_eq_true, if_false]
    rfl

/--
Claim C4 witness: on an admitted static-asset request carrying
`namespace=course1`, the probe observes `course1` while running — on both the
normal and the raising exit path — and the final namespace is restored to the
prior (empty) one; on a denied request the namespace is untouched.
-/
theorem claim_C4_namespace_scoped_witness :
    (ui_access_wrapper true (fun _ _ => false) false nsProbeOk
        ⟨"/mapreduce/ui/a.css", [], [("namespace", "course1")]⟩
        ⟨"", ⟨"", 0, none⟩, []⟩).1.log = ["course1"] ∧
    (ui_access_wrapper true (fun _ _ => false) false nsProbeRaise
        ⟨"/mapreduce/ui/a.css", [], [("namespace", "course1")]⟩
        ⟨"", ⟨"", 0, none⟩, []⟩).1.nspace = "" ∧
    (ui_access_wrapper false (fun _ _ => false) false nsProbeOk
        ⟨"/mapreduce/ui/a.css", [], [("namespace", "course1")]⟩
        ⟨"prior", ⟨"", 0, none⟩, []⟩).1.nspace = "prior" := by
  refine ⟨?_, ?_, ?_⟩
  · exact ((claim_C4_namespace_scoped true (fun _ _ => false) false
      ⟨"/mapreduce/ui/a.css", [], [("namespace", "course1")]⟩
      ⟨"", ⟨"", 0, none⟩, []⟩).1 (by decide)).2.1
  · exact ((claim_C4_namespace_scoped true (fun _ _ => false) false
      ⟨"/mapreduce/ui/a.css", [], [("namespace", "course1")]⟩
      ⟨"", ⟨"", 0, none⟩, []⟩).1 (by decide)).1 nsProbeRaise
  · exact (claim_C4_namespace_scoped false (fun _ _ => false) false
      ⟨"/mapreduce/ui/a.css", [], [("namespace", "course1")]⟩
      ⟨"prior", ⟨"", 0, none⟩, []⟩).2 (by decide) nsProbeOk

/--
Claim C5: the Response Context Propagator rewrites a body only on the
admitted success path and only when the request path equals one of the four
fixed endpoint identities; for every admitted request whose path is none of
the four, the wrapper's result is exactly the inner handler's state (body
untouched) with the namespace restored — on the normal exit path, and
likewise with no rewriting on the raising exit path.  (Denied requests never
reach the propagator at all: by C1 they short-circuit to the fixed 403
response without running the handler.)
-/
theorem claim_C5_propagator_frame (ui : Bool) (valid : String → String → Bool)
    (admin : Bool) (f : Handler) (req : Request) (s s' : DispatchState)
    (hadm : admittedCond ui valid admin req = true)
    (hp1 : req.path ≠ "/mapreduce/ui/pipeline/status.js")
    (hp2 : req.path ≠ "/mapreduce/ui/pipeline/rpc/tree")
    (hp3 : req.path ≠ "/mapreduce/ui/detail")
    (hp4 : req.path ≠ "/mapreduce/ui/status.js") :
    (f req { s with nspace := req.get "namespace" } = (s', true) →
      ui_access_wrapper ui valid admin f req s = ({ s' with nspace := s.nspace }, true)) ∧
    (f req { s with nspace := req.get "namespace" } = (s', false) →
      ui_access_wrapper ui valid admin f req s = ({ s' with nspace := s.nspace }, false)) := by
  constructor
  · intro hf
    unfold ui_access_wrapper
    rw [hadm]
    simp only [if_true, withNamespace, hf]
    rw [if_neg hp1, if_neg hp2, if_neg hp3, if_neg hp4]
  · intro hf
    unfold ui_access_wrapper
    rw [hadm]
    simp only [if_true, withNamespace, hf]
    simp only [Bool.false_eq_true, if_false]

/--
Claim C5 witness: on an admitted request for a UI asset outside the four
rewritten endpoints the handler's body passes through unmodified.
-/
theorem claim_C5_propagator_frame_witness :
    ui_access_wrapper true (fun _ _ => false) false
        (fun _ st => ({ st with response := ⟨"body-from-handler", 200, none⟩ }, true))
        ⟨"/mapreduce/ui/base.css", [], []⟩ ⟨"", ⟨"", 0, none⟩, []⟩
      = (⟨"", ⟨"body-from-handler", 200, none⟩, []⟩, true) := by
  exact (claim_C5_propagator_frame true (fun _ _ => false) false
      (fun _ st => ({ st with response := ⟨"body-from-handler", 200, none⟩ }, true))
      ⟨"/mapreduce/ui/base.css", [], []⟩ ⟨"", ⟨"", 0, none⟩, []⟩
      ⟨"", ⟨"body-from-handler", 200, none⟩, []⟩
      (by decide) (by decide) (by decide) (by decide) (by decide)).1 rfl

-- Idempotence of a Python replace-all whose pattern/replacement pair admits
-- no re-occurrence of the pattern.
theorem pyReplace_idem_of_safe {pat repl : String}
    (h : SafeRule pat.data repl.data) (body : String) :
    pyReplace (pyReplace body pat repl) pat repl = pyReplace body pat repl :=
  congrArg String.mk (replaceAllL_idem h body.data)

theorem substPipelineStatus_idem (body : String) :
    substPipelineStatus (substPipelineStatus body) = substPipelineStatus body :=
  pyReplace_idem_of_safe safeRule_pipelineStatus body

theorem substRpcTree_idem (ns tok body : String) :
    substRpcTree (urlencode (uiParams ns tok))
        (substRpcTree (urlencode (uiParams ns tok)) body)
      = substRpcTree (urlencode (uiParams ns tok)) body :=
  pyReplace_idem_of_safe (safeRule_rpcTree (urlencode (uiParams ns tok)).data
    (extraFacts ns tok).1) body

theorem substDetail_idem (ns tok body : String) :
    substDetail (urlencode (uiParams ns tok))
        (substDetail (urlencode (uiParams ns tok)) body)
      = substDetail (urlencode (uiParams ns tok)) body :=
  pyReplace_idem_of_safe (safeRule_detail (urlencode (uiParams ns tok)).data
    (extraFacts ns tok).2.1 (extraFacts ns tok).2.2) body

/--
Claim C3 (counterexample): the claim that each of the four path-keyed
substitutions is idempotent is false for the status-script substitution
(path `/mapreduce/ui/status.js`): its anchor `'mapreduce_id':` is preserved
at the end of its own replacement text, so applying the substitution a second
time injects the `'namespace'`/`'xsrf_token'` entries a second time.  On the
concrete body `var x = {'mapreduce_id': '42'};` with namespace `course1` and
token `tok123`, one application and two applications give the two distinct
bodies below, hence the boolean equality test of the two results decides to
`false`.
-/
theorem claim_C3_status_subst_not_idempotent :
    substStatusJs "course1" "tok123" "var x = \x7b'mapreduce_id': '42'\x7d;"
      = "var x = \x7b'namespace': 'course1', 'xsrf_token': 'tok123', 'mapreduce_id': '42'\x7d;" ∧
    substStatusJs "course1" "tok123"
        (substStatusJs "course1" "tok123" "var x = \x7b'mapreduce_id': '42'\x7d;")
      = "var x = \x7b'namespace': 'course1', 'xsrf_token': 'tok123', 'namespace': 'course1', 'xsrf_token': 'tok123', 'mapreduce_id': '42'\x7d;" ∧
    (decide (substStatusJs "course1" "tok123"
        (substStatusJs "course1" "tok123" "var x = \x7b'mapreduce_id': '42'\x7d;")
      = substStatusJs "course1" "tok123" "var x = \x7b'mapreduce_id': '42'\x7d;")) = false := by
  refine ⟨by decide, by decide, by decide⟩

/--
Claim C3 (amended): three of the four path-keyed substitutions of the
Response Context Propagator are idempotent for every body and all parameter
values — the pipeline status-script rule (`rpc/tree?` link), the RPC-tree
rule (worker-detail link) and the detail rule (script `src` reference) —
because their fixed literal anchors cannot recur in the body after the first
rewrite.  The fourth, the status-script substitution, is not idempotent: its
anchor `'mapreduce_id':` recurs (it is kept as the tail of its own
replacement), and a second application duplicates the injected
namespace/token entries, as the final concrete equation shows.
-/
theorem claim_C3_amended_idempotence :
    (∀ body : String,
      substPipelineStatus (substPipelineStatus body) = substPipelineStatus body) ∧
    (∀ ns tok body : String,
      substRpcTree (urlencode (uiParams ns tok))
          (substRpcTree (urlencode (uiParams ns tok)) body)
        = substRpcTree (urlencode (uiParams ns tok)) body) ∧
    (∀ ns tok body : String,
      substDetail (urlencode (uiParams ns tok))
          (substDetail (urlencode (uiParams ns tok)) body)
        = substDetail (urlencode (uiParams ns tok)) body) ∧
    substStatusJs "course1" "tok123"
        (substStatusJs "course1" "tok123" "var x = \x7b'mapreduce_id': '42'\x7d;")
      = "var x = \x7b'namespace': 'course1', 'xsrf_token': 'tok123', 'namespace': 'course1', 'xsrf_token': 'tok123', 'mapreduce_id': '42'\x7d;" :=
  ⟨substPipelineStatus_idem, substRpcTree_idem, substDetail_idem, by decide⟩

/-! Concrete scenario data for claims C8 and C10. -/

def c8Req : Request :=
  ⟨"/mapreduce/ui/status.js", [], [("namespace", "course1"), ("xsrf_token", "tok123")]⟩

def c8Valid : String → String → Bool :=
  fun t a => decide (t = "tok123") && decide (a = XSRF_ACTION_NAME)

def c8Handler : Handler := fun _ st =>
  ({ st with
      response := ⟨"var obj = \x7b'mapreduce_id': '42'\x7d;", 200, none⟩,
      log := st.log ++ [st.nspace] }, true)

def c8Start : DispatchState := ⟨"", ⟨"", 0, none⟩, []⟩

def c10Req : Request := ⟨"/mapreduce/ui/status.js", [], []⟩

def c10Handler : Handler := fun _ st =>
  ({ st with response := ⟨"var obj = \x7b'mapreduce_id': '42'\x7d;", 200, none⟩ }, true)

def c10Start : DispatchState := ⟨"", ⟨"", 0, none⟩, []⟩

/--
Claim C8: for the admitted request to `/mapreduce/ui/status.js` with
namespace parameter `course1` and token `tok123` (feature enabled, token
valid for the fixed action), the rewritten body contains the fragment
`{'namespace': 'course1', 'xsrf_token': 'tok123', 'mapreduce_id':`
immediately preceding the original `'mapreduce_id':` key (the first equation
exhibits the whole body, the second checks the containment), the response
declares its text encoding (`charset` set to `utf8`), and the namespace
`course1` was active during the nested handler's execution (observed by the
probe inside the handler).
-/
theorem claim_C8_status_script_scenario :
    (ui_access_wrapper true c8Valid false c8Handler c8Req c8Start).1.response.body
      = "var obj = \x7b'namespace': 'course1', 'xsrf_token': 'tok123', 'mapreduce_id': '42'\x7d;" ∧
    strContains (ui_access_wrapper true c8Valid false c8Handler c8Req c8Start).1.response.body
      "\x7b'namespace': 'course1', 'xsrf_token': 'tok123', 'mapreduce_id':" = true ∧
    (ui_access_wrapper true c8Valid false c8Handler c8Req c8Start).1.response.charset
      = some "utf8" ∧
    (ui_access_wrapper true c8Valid false c8Handler c8Req c8Start).1.log = ["course1"] := by
  refine ⟨by decide, by decide, by decide, by decide⟩

/--
Claim C10: for an admitted request to `/mapreduce/ui/status.js` with both the
namespace and the xsrf_token parameters absent, the status-script
substitution is still applied — the `'mapreduce_id':` anchor is prefixed with
`'namespace': ''` and `'xsrf_token': ''` entries carrying empty-string
values — and the response charset is set, rather than the body being left
untouched.
-/
theorem claim_C10_empty_params_subst :
    (ui_access_wrapper true (fun _ _ => false) false c10Handler c10Req c10Start).1.response.body
      = "var obj = \x7b'namespace': '', 'xsrf_token': '', 'mapreduce_id': '42'\x7d;" ∧
    (ui_access_wrapper true (fun _ _ => false) false c10Handler c10Req c10Start).1.response.charset
      = some "utf8" := by
  refine ⟨by decide, by decide⟩

def origClass : HandlerClass := ⟨some (DispatchVal.orig 0), none⟩

/--
Claim C6 (counterexample): route classification never fails — `register_module`
has no fatal-error path.  The declared pattern `/foo` (which matches no
rewrite rule: it does not start with the pipeline wildcard prefix and
contains no `.*` wildcard to rewrite into a gateway prefix) is not a
configuration error: `register_module` returns normally and the assembled
route table contains the route with its path unchanged, not under any
`/mapreduce/` gateway prefix — contradicting the claim that the gateway must
not assemble a route table containing an unclassifiable route.
-/
theorem claim_C6_unprefixed_route_assembled :
    register_module [("/foo", origClass)]
      = [("/foo", ⟨some DispatchVal.authorizationWrapper, some (DispatchVal.orig 0)⟩)] ∧
    strStartsWith "/foo" "/mapreduce/" = false := by
  refine ⟨by decide, by decide⟩

/--
Claim C6 (amended): route classification at registration is total over
retained patterns — `classifyPath` drops a pattern (returns `none`) exactly
for the non-pipeline `/list_configs` routes without `_callback`, and every
entry of the assembled route table comes from a retained pattern with its
classified path; a pattern that none of the rewrite rules can place under a
gateway prefix is not a fatal startup error: it is retained with its path
unchanged (so the table may contain routes outside the gateway prefixes).
-/
theorem claim_C6_amended_classification_total (hs : List (String × HandlerClass)) :
    (∀ p : String, classifyPath p = none ↔
      (strStartsWith p ".*/pipeline" = false ∧ strContains p "_callback" = false ∧
       strContains p "/list_configs" = true)) ∧
    (∀ e ∈ register_module hs, ∃ q h, (q, h) ∈ hs ∧ classifyPath q = some e.1) ∧
    (∀ p : String, strStartsWith p ".*/pipeline" = false → strContains p ".*" = false →
      strContains p "/list_configs" = false → classifyPath p = some p) := by
  refine ⟨?_, ?_, ?_⟩
  · intro p
    constructor
    · intro hnone
      unfold classifyPath at hnone
      by_cases h1 : strStartsWith p ".*/pipeline" = true
      · rw [if_pos h1] at hnone
        split at hnone <;> simp at hnone
      · rw [if_neg h1] at hnone
        by_cases h2 : strContains p "_callback" = true
        · rw [if_pos h2] at hnone
          simp at hnone
        · rw [if_neg h2] at hnone
          by_cases h3 : strContains p "/list_configs" = true
          · refine ⟨?_, ?_, h3⟩
            · cases hx : strStartsWith p ".*/pipeline"
              · rfl
              · exact absurd hx h1
            · cases hx : strContains p "_callback"
              · rfl
              · exact absurd hx h2
          · rw [if_neg h3] at hnone
            simp at hnone
    · rintro ⟨ha, hb, hc⟩
      unfold classifyPath
      rw [ha, hb, hc]
      simp
  · intro e he
    unfold register_module at he
    rw [List.mem_filterMap] at he
    obtain ⟨a, ha, hfa⟩ := he
    refine ⟨a.1, a.2, ha, ?_⟩
    cases hc : classifyPath a.1 with
    | none => rw [hc] at hfa; simp at hfa
    | some path =>
      rw [hc] at hfa
      simp only at hfa
      by_cases hui : (strContains path "/ui/" || strEndsWith path "/ui") = true
      · rw [if_pos hui] at hfa
        exact congrArg (fun z => some z.1) (Option.some.inj hfa)
      · rw [if_neg hui] at hfa
        exact congrArg (fun z => some z.1) (Option.some.inj hfa)
  · intro p h1 h2 h3
    unfold classifyPath
    rw [h1]
    simp only [Bool.false_eq_true, if_false]
    by_cases h4 : strContains p "_callback" = true
    · rw [h4]
      simp only [if_true]
      rw [pyReplaceFirst_no_occ h2]
    · have h4f : strContains p "_callback" = false := by
        cases hx : strContains p "_callback"
        · rfl
        · exact absurd hx h4
      rw [h4f]
      simp only [Bool.false_eq_true, if_false]
      rw [h3]
      simp only [Bool.false_eq_true, if_false]
      rw [pyReplaceFirst_no_occ h2]

/--
Claim C6 amended witness: the unmatched pattern `/foo` is classified to
itself, with no error.
-/
theorem claim_C6_amended_classification_total_witness :
    classifyPath "/foo" = some "/foo" :=
  (claim_C6_amended_classification_total []).2.2 "/foo" (by decide) (by decide) (by decide)

/--
Claim C7 (counterexample): the claim that every non-pipeline route whose
pattern contains `/list_configs` is dropped is false: the `_callback` test
precedes the `/list_configs` test, so the non-pipeline pattern
`.*/list_configs_callback` — which does contain `/list_configs` — is not
dropped; it is rewritten to the worker prefix and retained in the assembled
route table.
-/
theorem claim_C7_callback_list_configs_retained :
    strContains ".*/list_configs_callback" "/list_configs" = true ∧
    strStartsWith ".*/list_configs_callback" ".*/pipeline" = false ∧
    register_module [(".*/list_configs_callback", origClass)]
      = [("/mapreduce/worker/list_configs_callback",
          ⟨some DispatchVal.authorizationWrapper, some (DispatchVal.orig 0)⟩)] := by
  refine ⟨by decide, by decide, by decide⟩

/--
Claim C7 (amended): for every input route table, any non-pipeline route whose
pattern contains `/list_configs` and does not contain `_callback` is dropped
by `register_module` and never appears in the assembled route table, under
any configuration: its classification is `none` and removing the entry from
the input leaves the assembled table unchanged wherever the entry sits.
-/
theorem claim_C7_amended_drop (p : String) (h : HandlerClass)
    (hs₁ hs₂ : List (String × HandlerClass))
    (hpipe : strStartsWith p ".*/pipeline" = false)
    (hlist : strContains p "/list_configs" = true)
    (hcb : strContains p "_callback" = false) :
    classifyPath p = none ∧
    register_module (hs₁ ++ (p, h) :: hs₂) = register_module (hs₁ ++ hs₂) := by
  have hnone : classifyPath p = none := by
    unfold classifyPath
    rw [hpipe]
    simp only [Bool.false_eq_true, if_false]
    rw [hcb]
    simp only [Bool.false_eq_true, if_false]
    rw [hlist]
    simp
  refine ⟨hnone, ?_⟩
  unfold register_module
  rw [List.filterMap_append, List.filterMap_append, List.filterMap_cons]
  rw [hnone]

/--
Claim C7 amended witness: the dropped configuration-listing route contributes
nothing to the assembled table.
-/
theorem claim_C7_amended_drop_witness :
    register_module [(".*/list_configs", origClass)] = [] :=
  (claim_C7_amended_drop ".*/list_configs" origClass [] []
    (by decide) (by decide) (by decide)).2

/--
Claim C9: `register_module` wraps a handler class only if it has a `dispatch`
attribute and does not already have a `real_dispatch` attribute, so wrapping
is applied at most once per class: a class with `real_dispatch` already set,
or without `dispatch`, passes through both wrap operations unchanged; and for
any nonempty sequence of wrap operations applied to an unwrapped class (as
when `register_module` runs again over the same class objects),
`real_dispatch` is always the original pre-wrap dispatch and `dispatch` is
one of the two wrapper functions — never a wrapper around a wrapper.
-/
theorem claim_C9_wrap_once (d : DispatchVal) (h : HandlerClass) :
    (h.real_dispatch.isSome = true → wrap_ui_class h = h ∧ wrap_auth_class h = h) ∧
    (h.dispatch = none → wrap_ui_class h = h ∧ wrap_auth_class h = h) ∧
    (∀ ws : List Bool, ws ≠ [] →
      (applyWraps ws ⟨some d, none⟩).real_dispatch = some d ∧
      ((applyWraps ws ⟨some d, none⟩).dispatch = some DispatchVal.uiAccessWrapper ∨
       (applyWraps ws ⟨some d, none⟩).dispatch = some DispatchVal.authorizationWrapper)) := by
  have hfix : ∀ h' : HandlerClass, h'.real_dispatch.isSome = true →
      wrap_ui_class h' = h' ∧ wrap_auth_class h' = h' := by
    intro h' hsome
    unfold wrap_ui_class wrap_auth_class
    rw [hsome]
    simp
  have happly : ∀ (ws : List Bool) (h' : HandlerClass), h'.real_dispatch.isSome = true →
      applyWraps ws h' = h' := by
    intro ws
    induction ws with
    | nil => intro h' _; rfl
    | cons w rest ih =>
      intro h' hsome
      unfold applyWraps
      rw [List.foldl_cons]
      cases w
      · show applyWraps rest (wrap_auth_class h') = h'
        rw [(hfix h' hsome).2]
        exact ih h' hsome
      · show applyWraps rest (wrap_ui_class h') = h'
        rw [(hfix h' hsome).1]
        exact ih h' hsome
  refine ⟨hfix h, ?_, ?_⟩
  · intro hdn
    unfold wrap_ui_class wrap_auth_class
    rw [hdn]
    simp
  · intro ws hws
    cases ws with
    | nil => exact absurd rfl hws
    | cons w rest =>
      unfold applyWraps
      rw [List.foldl_cons]
      cases w
      · rw [if_neg (by decide)]
        have hwa : wrap_auth_class ⟨some d, none⟩
            = ⟨some DispatchVal.authorizationWrapper, some d⟩ := by
          unfold wrap_auth_class
          simp
        have hres := happly rest
          (⟨some DispatchVal.authorizationWrapper, some d⟩ : HandlerClass) (by simp)
        refine ⟨?_, Or.inr ?_⟩
        · show (applyWraps rest (wrap_auth_class ⟨some d, none⟩)).real_dispatch = some d
          rw [hwa, hres]
        · show (applyWraps rest (wrap_auth_class ⟨some d, none⟩)).dispatch
            = some DispatchVal.authorizationWrapper
          rw [hwa, hres]
      · rw [if_pos rfl]
        have hwu : wrap_ui_class ⟨some d, none⟩
            = ⟨some DispatchVal.uiAccessWrapper, some d⟩ := by
          unfold wrap_ui_class
          simp
        have hres := happly rest
          (⟨some DispatchVal.uiAccessWrapper, some d⟩ : HandlerClass) (by simp)
        refine ⟨?_, Or.inl ?_⟩
        · show (applyWraps rest (wrap_ui_class ⟨some d, none⟩)).real_dispatch = some d
          rw [hwu, hres]
        · show (applyWraps rest (wrap_ui_class ⟨some d, none⟩)).dispatch
            = some DispatchVal.uiAccessWrapper
          rw [hwu, hres]

/--
Claim C9 witness: three runs of wrapping over the same class leave
`real_dispatch` at the original dispatch, and the class with `real_dispatch`
already present is not wrapped again.
-/
theorem claim_C9_wrap_once_witness :
    (applyWraps [true, false, true] ⟨some (DispatchVal.orig 7), none⟩).real_dispatch
      = some (DispatchVal.orig 7) ∧
    wrap_ui_class ⟨some DispatchVal.uiAccessWrapper, some (DispatchVal.orig 7)⟩
      = ⟨some DispatchVal.uiAccessWrapper, some (DispatchVal.orig 7)⟩ := by
  constructor
  · exact ((claim_C9_wrap_once (DispatchVal.orig 7)
      ⟨some (DispatchVal.orig 7), none⟩).2.2 [true, false, true] (by simp)).1
  · exact ((claim_C9_wrap_once (DispatchVal.orig 7)
      ⟨some DispatchVal.uiAccessWrapper, some (DispatchVal.orig 7)⟩).1 (by decide)).1
